/-
Verification of the multi-exchange aggregation / streaming core of the
pebble-crypto backend.

Shallow embedding conventions:
* Python floats are modelled as rationals (ℚ).
* Python dicts that preserve insertion order are modelled as association
  lists; Python sets as `Finset ℕ` (connections carry numeric ids).
* Fallible operations (indexing, parsing, division by a zero length) are
  modelled with `Option` / `Except`.
-/
import Mathlib

set_option maxRecDepth 4000
set_option linter.unusedSectionVars false
set_option linter.unusedVariables false

/- Batteries marks the `Rat` arithmetic operations `@[irreducible]`,
which blocks `decide` on concrete rational computations; restore the
default reducibility (the kernel ignores reducibility hints, so proofs
are unaffected). -/
set_option allowUnsafeReducibility true in
attribute [semireducible] Rat.mul Rat.add Rat.sub Rat.inv Rat.div

/-! ### Arbitrage engine (app/api/routes/multi_exchange.py) -/

/-- One entry of a symbol's per-exchange map in the price-map results.
`price` is `data.get("price")`: `none` models an absent / null price.

Modelled from the spec: the aggregator (`MarketAgent.find_best_prices`,
`app/core/ai/agent.py`, not present in the sources) produces the
per-symbol exchange map; per spec §4.3 "exchanges within a symbol
preserve registry priority order", so the *list order* of entries below
is registry priority order (earlier = higher priority = lower rank). -/
structure ExchangeEntry where
  name : String
  price : Option ℚ
deriving DecidableEq, Repr

/-- One element of `price_data["results"]` as consumed by the arbitrage
route: a symbol together with its per-exchange map. -/
structure SymbolData where
  symbol : String
  exchanges : List ExchangeEntry
deriving DecidableEq, Repr

/-- An element of `arbitrage_opportunities` built at
`multi_exchange.py:199-207`. -/
structure ArbitrageOpportunity where
  symbol : String
  buy_exchange : String
  sell_exchange : String
  buy_price : ℚ
  sell_price : ℚ
  spread_percent : ℚ
  potential_profit_per_unit : ℚ
deriving DecidableEq, Repr

/-- Python `round(q, d)`: rounding to `d` decimal places
(`multi_exchange.py:205-206`), modelled as round-half-up on rationals. -/
def roundTo (d : ℕ) (q : ℚ) : ℚ :=
  ((Rat.floor (q * (10 : ℚ) ^ d + 1 / 2) : ℤ) : ℚ) / (10 : ℚ) ^ d

/-- The comprehension `[(name, data["price"]) for name, data in exchanges.items()
     if data.get("price") and data["price"] > 0]`
(`multi_exchange.py:185-186`): keep entries with a present, strictly
positive price (a `None` or `0` price is falsy, a negative one fails
`> 0`). -/
def usablePrices (exs : List ExchangeEntry) : List (String × ℚ) :=
  exs.filterMap fun e =>
    match e.price with
    | some p => if 0 < p then some (e.name, p) else none
    | none => none

/-- The comparison used by `prices.sort(key=lambda x: x[1])`
(`multi_exchange.py:191`): order by the price component. -/
def priceLE (a b : String × ℚ) : Prop := a.2 ≤ b.2

instance : DecidableRel priceLE := fun a b =>
  inferInstanceAs (Decidable (a.2 ≤ b.2))

/-- Body of the `for symbol_data in price_data.get("results", [])` loop
(`multi_exchange.py:177-207`): the opportunity the arbitrage route emits
for one results entry, or `none` when the entry is skipped (`continue`)
or the spread filter fails.  Python's `list.sort` is stable, which
`List.insertionSort` reproduces. -/
def oppOfSymbolData (d : SymbolData) : Option ArbitrageOpportunity :=
  if d.exchanges.length < 2 then none
  else
    let prices := usablePrices d.exchanges
    if prices.length < 2 then none
    else
      let sorted := List.insertionSort priceLE prices
      match sorted.head?, sorted.getLast? with
      | some mn, some mx =>
        let spread := ((mx.2 - mn.2) / mn.2) * 100
        if 1 / 10 < spread then
          some ⟨d.symbol, mn.1, mx.1, mn.2, mx.2,
            roundTo 4 spread, roundTo 6 (mx.2 - mn.2)⟩
        else none
      | _, _ => none

/-- The descending comparison used by
`arbitrage_opportunities.sort(key=lambda x: x["spread_percent"],
reverse=True)` (`multi_exchange.py:210`); Python's `reverse=True` sort
is stable in the original order, which this relation reproduces under
`List.insertionSort`. -/
def spreadGE (a b : ArbitrageOpportunity) : Prop :=
  b.spread_percent ≤ a.spread_percent

instance : DecidableRel spreadGE := fun a b =>
  inferInstanceAs (Decidable (b.spread_percent ≤ a.spread_percent))

instance : IsTotal ArbitrageOpportunity spreadGE :=
  ⟨fun a b => le_total b.spread_percent a.spread_percent⟩

instance : IsTrans ArbitrageOpportunity spreadGE :=
  ⟨fun _ _ _ hab hbc => le_trans hbc hab⟩

instance : IsTotal (String × ℚ) priceLE :=
  ⟨fun a b => le_total a.2 b.2⟩

instance : IsTrans (String × ℚ) priceLE :=
  ⟨fun _ _ _ hab hbc => le_trans hab hbc⟩

/-- The arbitrage computation of the `/arbitrage` route
(`multi_exchange.py:175-210`), from the decoded `results` list to the
sorted `arbitrage_opportunities` list. -/
def find_arbitrage_opportunities (results : List SymbolData) :
    List ArbitrageOpportunity :=
  List.insertionSort spreadGE (results.filterMap oppOfSymbolData)

/-- Two symbols with identical spreads, listed in reverse lexical order
in the price-map results. -/
def tieResults : List SymbolData :=
  [⟨"ZZZUSDT", [⟨"exa", some 100⟩, ⟨"exb", some 101⟩]⟩,
   ⟨"AAAUSDT", [⟨"exa", some 200⟩, ⟨"exb", some 202⟩]⟩]

/-- A maximum-price tie between the higher-priority "beta" and the
lower-priority "gamma" (the exchange map is in registry priority
order). -/
def maxTieData : SymbolData :=
  ⟨"BTCUSDT", [⟨"alpha", some 100⟩, ⟨"beta", some 101⟩, ⟨"gamma", some 101⟩]⟩

/-! ### Route validation and error wrapping (C4, C5)

`find_best_prices` (multi_exchange.py:40-71), `find_arbitrage_opportunities`
(multi_exchange.py:148-221) and `get_trading_recommendations`
(market_advisor.py:20-59) all follow the same shape: a `try` block that
raises `HTTPException(400, ...)` for bad request shapes, then awaits the
agent, wrapped in `except Exception as e: raise HTTPException(500, ...)`.
`fastapi.HTTPException` *is* an `Exception`, so the blanket handler also
catches the endpoint's own 400s; `str(e)` is `"{status_code}: {detail}"`. -/

structure HTTPError where
  status_code : ℕ
  detail : String
deriving DecidableEq, Repr

/-- Python `str(HTTPException(code, detail))`. -/
def strOfHTTPError (e : HTTPError) : String :=
  toString e.status_code ++ ": " ++ e.detail

/-- The `try` block of `find_best_prices` up to the agent call
(multi_exchange.py:59-63): `symbols_request` decoded as the optional
"symbols" field. -/
def bestPricesValidate (symbols : Option (List String)) :
    Except HTTPError (List String) :=
  match symbols with
  | none => .error ⟨400, "Symbols list is required"⟩
  | some l =>
    if l = [] then .error ⟨400, "Symbols list is required"⟩
    else if 10 < l.length then
      .error ⟨400, "Maximum 10 symbols allowed per request"⟩
    else .ok l

/-- The whole `find_best_prices` handler (multi_exchange.py:42-71):
any exception raised in the `try` block — the validation
`HTTPException(400)`s included — is re-raised as a 500. The external
market agent is abstracted as a total function `agent`. -/
def find_best_prices {α : Type} (symbols : Option (List String))
    (agent : List String → α) : Except HTTPError α :=
  match bestPricesValidate symbols with
  | .ok l => .ok (agent l)
  | .error e =>
    .error ⟨500, "Failed to find best prices: " ++ strOfHTTPError e⟩

/-- The `try` block of the arbitrage handler up to the agent call
(multi_exchange.py:165-169). -/
def arbitrageValidate (symbols : Option (List String)) :
    Except HTTPError (List String) :=
  match symbols with
  | none => .error ⟨400, "Symbols list is required"⟩
  | some l =>
    if l = [] then .error ⟨400, "Symbols list is required"⟩
    else if 5 < l.length then
      .error ⟨400, "Maximum 5 symbols allowed for arbitrage analysis"⟩
    else .ok l

/-- The whole `/arbitrage` handler (multi_exchange.py:150-221): validate,
fetch the price map (`agent`, returning the decoded `results` list),
compute opportunities; all raised exceptions become 500s. -/
def arbitrage_route (symbols : Option (List String))
    (agent : List String → List SymbolData) :
    Except HTTPError (List ArbitrageOpportunity) :=
  match arbitrageValidate symbols with
  | .ok l => .ok (find_arbitrage_opportunities (agent l))
  | .error e =>
    .error ⟨500,
      "Failed to analyze arbitrage opportunities: " ++ strOfHTTPError e⟩

/-- The `try` block of `get_trading_recommendations` up to the advisor
call (market_advisor.py:41-45). -/
def recommendationsValidate (symbols : Option (List String)) :
    Except HTTPError (List String) :=
  match symbols with
  | none => .error ⟨400, "Symbols list is required"⟩
  | some l =>
    if l = [] then .error ⟨400, "Symbols list is required"⟩
    else if 5 < l.length then
      .error ⟨400, "Maximum 5 symbols allowed per request"⟩
    else .ok l

/-- The whole `/recommendations` handler (market_advisor.py:22-59). -/
def get_trading_recommendations {α : Type} (symbols : Option (List String))
    (advisor : List String → α) : Except HTTPError α :=
  match recommendationsValidate symbols with
  | .ok l => .ok (advisor l)
  | .error e =>
    .error ⟨500,
      "Failed to generate trading recommendations: " ++ strOfHTTPError e⟩

/-! ### ConnectionManager (app/api/routes/websockets.py:21-56)

`active_connections : Dict[str, Set[WebSocket]]` is modelled as an
association list from symbols to `Finset ℕ` (websockets carry numeric
ids); the list order is the dict's insertion order.  Every Python
subscript access in the class is guarded by a `symbol in ...` check, so
the methods embed as total functions. -/

namespace ConnectionManager

/-- Lookup for both `symbol in self.active_connections` and `self.active_connections[symbol]`. -/
def lookup : List (String × Finset ℕ) → String → Option (Finset ℕ)
  | [], _ => none
  | (k, v) :: t, s => if k = s then some v else lookup t s

/-- Assignment `self.active_connections[symbol] = w` on an existing key: the entry
is updated in place (dict order preserved). -/
def setKey : List (String × Finset ℕ) → String → Finset ℕ →
    List (String × Finset ℕ)
  | [], _, _ => []
  | (k, v) :: t, s, w => if k = s then (k, w) :: t else (k, v) :: setKey t s w

/-- Deletion `del self.active_connections[symbol]`. -/
def delKey : List (String × Finset ℕ) → String → List (String × Finset ℕ)
  | [], _ => []
  | (k, v) :: t, s => if k = s then t else (k, v) :: delKey t s

/-- Method `connect` (websockets.py:25-30): create the entry if absent (a new
dict key is appended last), then `add(websocket)`. -/
def connect (st : List (String × Finset ℕ)) (ws : ℕ) (sym : String) :
    List (String × Finset ℕ) :=
  match lookup st sym with
  | none => st ++ [(sym, {ws})]
  | some v => setKey st sym (insert ws v)

/-- Method `disconnect` (websockets.py:32-37): `discard`, then delete the key
if the set became empty. -/
def disconnect (st : List (String × Finset ℕ)) (ws : ℕ) (sym : String) :
    List (String × Finset ℕ) :=
  match lookup st sym with
  | none => st
  | some v =>
    let v' := v.erase ws
    if v' = ∅ then delKey st sym else setKey st sym v'

/-- The `for connection in self.active_connections[symbol]` loop of
`broadcast` (websockets.py:47-53): `conns` is the set's iteration order,
`fails` the connections whose `send_text` raises.  Returns the
connections actually sent the message and the accumulated `disconnected`
set. -/
def broadcastPass (conns : List ℕ) (fails : Finset ℕ) : List ℕ × Finset ℕ :=
  conns.foldl
    (fun acc c =>
      if c ∈ fails then (acc.1, insert c acc.2) else (acc.1 ++ [c], acc.2))
    ([], ∅)

/-- Method `broadcast` (websockets.py:45-56): iterate, then remove the failed
connections with `-=` after the pass; the symbol key itself is never
deleted. -/
def broadcast (st : List (String × Finset ℕ)) (sym : String)
    (conns : List ℕ) (fails : Finset ℕ) :
    List ℕ × List (String × Finset ℕ) :=
  match lookup st sym with
  | none => ([], st)
  | some v =>
    let p := broadcastPass conns fails
    (p.1, setKey st sym (v \ p.2))

/-- The spec's invariant: every symbol entry has at least one
subscriber (a key exists iff someone subscribes to it). -/
abbrev Invariant (st : List (String × Finset ℕ)) : Prop :=
  ∀ p ∈ st, p.2 ≠ ∅

/-- Well-formedness of a Python dict image: keys are unique. -/
abbrev NodupKeys (st : List (String × Finset ℕ)) : Prop :=
  (st.map Prod.fst).Nodup

end ConnectionManager

/-! ### Signal generation (app/utils/signals.py) -/

/-- Function `generate_signal` (signals.py:1-14).  A row's close is
`float(entry[4])` — `none` models an out-of-range index / unparseable
close, and `none` overall models the raised exception; an empty list
raises `ZeroDivisionError` on `sum/len`.  Note `close_prices[-7:]` is
the last `min 7 n` closes but the divisor is the constant 7. -/
def generate_signal (market_data : List (List ℚ)) : Option String :=
  match market_data.mapM (fun row => row[4]?) with
  | none => none
  | some close_prices =>
    if close_prices.length = 0 then none
    else
      let short_ma := (close_prices.drop (close_prices.length - 7)).sum / 7
      let long_ma := close_prices.sum / (close_prices.length : ℚ)
      if long_ma < short_ma then some "BUY"
      else if short_ma < long_ma then some "SELL"
      else some "HOLD"

/-- The claim's reading of "the mean of the last 7 closing prices": the
arithmetic mean of the final `min 7 n` closes. -/
def meanLastSeven (closes : List ℚ) : ℚ :=
  ((closes.drop (closes.length - 7)).sum :ℚ) /
    ((closes.drop (closes.length - 7)).length : ℚ)

/-- The mean of all closing prices (`long_ma`). -/
def meanAll (closes : List ℚ) : ℚ := closes.sum / (closes.length : ℚ)

/-! ## Theorems -/

/-! ### Generic lemmas about stable sorting

Python's `list.sort` is stable.  `List.insertionSort` with a total
preorder induced by a key function has the same behaviour; the lemmas
below extract the facts the claims need: the sorted list is a
key-respecting rearrangement in which elements with equal keys keep
their original relative order, so the first element is the *first*
minimal-key element of the input and the last element is the *last*
maximal-key element. -/

section SortLemmas

variable {α : Type} {β : Type} [LinearOrder β] {key : α → β}
variable {r : α → α → Prop} [DecidableRel r]

theorem filter_orderedInsert_of_key
    (hNe : ∀ a b, ¬ r a b → key a ≠ key b) (v : β) (a : α)
    (ha : key a = v) :
    ∀ l : List α,
      (l.orderedInsert r a).filter (fun x => key x = v) =
        a :: l.filter (fun x => key x = v)
  | [] => by simp [List.orderedInsert, ha]
  | b :: t => by
    by_cases hrab : r a b
    · simp [List.orderedInsert, hrab, List.filter_cons, ha]
    · have hkb : key b ≠ v := fun hbv => hNe a b hrab (ha.trans hbv.symm)
      simp only [List.orderedInsert, if_neg hrab, List.filter_cons,
        decide_eq_true_eq, if_neg hkb]
      exact filter_orderedInsert_of_key hNe v a ha t

theorem filter_orderedInsert_of_key_ne (v : β) (a : α)
    (ha : key a ≠ v) :
    ∀ l : List α,
      (l.orderedInsert r a).filter (fun x => key x = v) =
        l.filter (fun x => key x = v)
  | [] => by simp [List.orderedInsert, ha]
  | b :: t => by
    by_cases hrab : r a b
    · simp [List.orderedInsert, hrab, List.filter_cons, ha]
    · simp only [List.orderedInsert, if_neg hrab, List.filter_cons]
      rw [filter_orderedInsert_of_key_ne v a ha t]

/-- Stability of insertion sort, phrased through key-level filters: the
elements whose key is `v` appear in the sorted list exactly as they
appear in the input. -/
theorem filter_insertionSort_key
    (hNe : ∀ a b, ¬ r a b → key a ≠ key b) (v : β) :
    ∀ l : List α,
      (l.insertionSort r).filter (fun x => key x = v) =
        l.filter (fun x => key x = v)
  | [] => rfl
  | a :: t => by
    by_cases ha : key a = v
    · rw [List.insertionSort,
        filter_orderedInsert_of_key hNe v a ha (t.insertionSort r),
        filter_insertionSort_key hNe v t, List.filter_cons]
      simp [ha]
    · rw [List.insertionSort,
        filter_orderedInsert_of_key_ne v a ha (t.insertionSort r),
        filter_insertionSort_key hNe v t, List.filter_cons]
      simp [ha]

theorem head?_rel_of_sorted {l : List α} (hs : List.Sorted r l)
    {a b : α} (ha : l.head? = some a) (hb : b ∈ l) : a = b ∨ r a b := by
  cases l with
  | nil => cases hb
  | cons x t =>
    cases ha
    rcases List.mem_cons.mp hb with hb | hb
    · exact Or.inl hb.symm
    · exact Or.inr (List.rel_of_sorted_cons hs b hb)

theorem getLast?_rel_of_sorted :
    ∀ {l : List α}, List.Sorted r l → ∀ {a b : α},
      l.getLast? = some a → b ∈ l → b = a ∨ r b a
  | [], _, _, _, ha, hb => by cases hb
  | [x], _, _, _, ha, hb => by
    cases ha
    rcases List.mem_singleton.mp hb with rfl
    exact Or.inl rfl
  | x :: y :: t, hs, a, b, ha, hb => by
    rw [List.getLast?_cons_cons] at ha
    rcases List.mem_cons.mp hb with rfl | hb
    · have hmem : a ∈ y :: t := List.mem_of_mem_getLast? ha
      exact Or.inr (List.rel_of_sorted_cons hs a hmem)
    · exact getLast?_rel_of_sorted hs.of_cons ha hb

theorem getLast?_filter_of_getLast (p : α → Bool) :
    ∀ (l : List α) (a : α), l.getLast? = some a → p a = true →
      (l.filter p).getLast? = some a
  | [], a, ha, _ => by cases ha
  | [x], a, ha, hp => by
    have hax : a = x := by simpa using ha.symm
    subst hax
    simp [List.filter_cons, hp]
  | x :: y :: t, a, ha, hp => by
    rw [List.getLast?_cons_cons] at ha
    have ih := getLast?_filter_of_getLast p (y :: t) a ha hp
    rw [List.filter_cons]
    by_cases hx : p x = true
    · rw [if_pos hx]
      cases hfil : (y :: t).filter p with
      | nil => rw [hfil] at ih; cases ih
      | cons z s => rw [hfil] at ih; rw [List.getLast?_cons_cons, ih]
    · rw [if_neg hx]
      exact ih

theorem find?_eq_head?_filter (p : α → Bool) :
    ∀ l : List α, l.find? p = (l.filter p).head?
  | [] => rfl
  | x :: t => by
    rw [List.find?, List.filter_cons]
    by_cases hx : p x = true
    · simp only [hx, if_true, List.head?_cons]
    · simp only [Bool.not_eq_true] at hx
      simp only [hx, Bool.false_eq_true, if_false]
      exact find?_eq_head?_filter p t

end SortLemmas

/-! ### Unpacking the arbitrage loop body -/

theorem length_usablePrices_le (exs : List ExchangeEntry) :
    (usablePrices exs).length ≤ exs.length :=
  List.length_filterMap_le _ _

theorem usable_sort_length (exs : List ExchangeEntry) :
    (List.insertionSort priceLE (usablePrices exs)).length =
      (usablePrices exs).length :=
  (List.perm_insertionSort priceLE _).length_eq

/-- Everything `oppOfSymbolData d = some opp` implies about `opp`. -/
theorem oppOfSymbolData_some_elim {d : SymbolData} {opp : ArbitrageOpportunity}
    (h : oppOfSymbolData d = some opp) :
    2 ≤ (usablePrices d.exchanges).length ∧
    (List.insertionSort priceLE (usablePrices d.exchanges)).head? =
      some (opp.buy_exchange, opp.buy_price) ∧
    (List.insertionSort priceLE (usablePrices d.exchanges)).getLast? =
      some (opp.sell_exchange, opp.sell_price) ∧
    opp.symbol = d.symbol ∧
    1 / 10 < ((opp.sell_price - opp.buy_price) / opp.buy_price) * 100 ∧
    opp.spread_percent =
      roundTo 4 (((opp.sell_price - opp.buy_price) / opp.buy_price) * 100) ∧
    opp.potential_profit_per_unit = roundTo 6 (opp.sell_price - opp.buy_price) := by
  simp only [oppOfSymbolData] at h
  by_cases h1 : d.exchanges.length < 2
  · rw [if_pos h1] at h; cases h
  rw [if_neg h1] at h
  by_cases h2 : (usablePrices d.exchanges).length < 2
  · rw [if_pos h2] at h; cases h
  rw [if_neg h2] at h
  cases hh : (List.insertionSort priceLE (usablePrices d.exchanges)).head? with
  | none =>
    rw [hh] at h
    cases hg : (List.insertionSort priceLE (usablePrices d.exchanges)).getLast? with
    | none => rw [hg] at h; cases h
    | some b => rw [hg] at h; cases h
  | some a =>
    rw [hh] at h
    cases hg : (List.insertionSort priceLE (usablePrices d.exchanges)).getLast? with
    | none => rw [hg] at h; cases h
    | some b =>
      rw [hg] at h
      dsimp only at h
      by_cases h3 : 1 / 10 < ((b.2 - a.2) / a.2) * 100
      · rw [if_pos h3] at h
        cases h
        exact ⟨by omega, rfl, rfl, rfl, h3, rfl, rfl⟩
      · rw [if_neg h3] at h; cases h

/-- The converse: a results entry with at least two usable prices whose
extreme prices pass the spread filter produces exactly the opportunity
built at `multi_exchange.py:199-207`. -/
theorem oppOfSymbolData_some_intro {d : SymbolData} {a b : String × ℚ}
    (h2 : 2 ≤ (usablePrices d.exchanges).length)
    (hh : (List.insertionSort priceLE (usablePrices d.exchanges)).head? = some a)
    (hg : (List.insertionSort priceLE (usablePrices d.exchanges)).getLast? = some b)
    (hsp : 1 / 10 < ((b.2 - a.2) / a.2) * 100) :
    oppOfSymbolData d = some ⟨d.symbol, a.1, b.1, a.2, b.2,
      roundTo 4 (((b.2 - a.2) / a.2) * 100), roundTo 6 (b.2 - a.2)⟩ := by
  have h1 : ¬ d.exchanges.length < 2 := by
    have := length_usablePrices_le d.exchanges
    omega
  simp only [oppOfSymbolData, if_neg h1, if_neg (not_lt.mpr h2)]
  rw [hh, hg]
  dsimp only
  rw [if_pos hsp]

/-- Membership in the final sorted output is membership in the loop's
accumulated list. -/
theorem mem_find_arbitrage {results : List SymbolData}
    {opp : ArbitrageOpportunity} :
    opp ∈ find_arbitrage_opportunities results ↔
      ∃ d, d ∈ results ∧ oppOfSymbolData d = some opp := by
  rw [find_arbitrage_opportunities,
    (List.perm_insertionSort spreadGE _).mem_iff, List.mem_filterMap]

/-- The head of the stable price sort is a minimal usable price. -/
theorem head_sort_min {exs : List ExchangeEntry} {a : String × ℚ}
    (hh : (List.insertionSort priceLE (usablePrices exs)).head? = some a) :
    ∀ p ∈ usablePrices exs, a.2 ≤ p.2 := by
  intro p hp
  have hs : List.Sorted priceLE (List.insertionSort priceLE (usablePrices exs)) :=
    List.sorted_insertionSort priceLE _
  have hmem : p ∈ List.insertionSort priceLE (usablePrices exs) :=
    ((List.perm_insertionSort priceLE _).mem_iff).mpr hp
  rcases head?_rel_of_sorted hs hh hmem with h | h
  · rw [← h]
  · exact h

/-- The last element of the stable price sort is a maximal usable price. -/
theorem getLast_sort_max {exs : List ExchangeEntry} {b : String × ℚ}
    (hg : (List.insertionSort priceLE (usablePrices exs)).getLast? = some b) :
    ∀ p ∈ usablePrices exs, p.2 ≤ b.2 := by
  intro p hp
  have hs : List.Sorted priceLE (List.insertionSort priceLE (usablePrices exs)) :=
    List.sorted_insertionSort priceLE _
  have hmem : p ∈ List.insertionSort priceLE (usablePrices exs) :=
    ((List.perm_insertionSort priceLE _).mem_iff).mpr hp
  rcases getLast?_rel_of_sorted hs hg hmem with h | h
  · rw [h]
  · exact h

theorem head_sort_mem {exs : List ExchangeEntry} {a : String × ℚ}
    (hh : (List.insertionSort priceLE (usablePrices exs)).head? = some a) :
    a ∈ usablePrices exs :=
  ((List.perm_insertionSort priceLE _).mem_iff).mp (List.mem_of_mem_head? hh)

theorem getLast_sort_mem {exs : List ExchangeEntry} {b : String × ℚ}
    (hg : (List.insertionSort priceLE (usablePrices exs)).getLast? = some b) :
    b ∈ usablePrices exs :=
  ((List.perm_insertionSort priceLE _).mem_iff).mp (List.mem_of_mem_getLast? hg)

/-! ### Claims C1 and C2 -/

/-- C1: In the arbitrage endpoint, for every symbol in the price-map
results, an arbitrage opportunity is emitted for that symbol if and only
if at least 2 exchange entries report a price greater than 0 and the
computed spread percent (max price minus min price, divided by min
price, times 100) is strictly greater than 0.1; symbols with fewer than
2 usable prices contribute no opportunity. -/
theorem arbitrage_emits_iff (results : List SymbolData) (s : String) :
    (∃ opp ∈ find_arbitrage_opportunities results, opp.symbol = s) ↔
    (∃ d ∈ results, d.symbol = s ∧
      2 ≤ (usablePrices d.exchanges).length ∧
      ∃ mn mx : ℚ, mn ∈ (usablePrices d.exchanges).map Prod.snd ∧
        mx ∈ (usablePrices d.exchanges).map Prod.snd ∧
        (∀ p ∈ (usablePrices d.exchanges).map Prod.snd, mn ≤ p ∧ p ≤ mx) ∧
        1 / 10 < ((mx - mn) / mn) * 100) := by
  constructor
  · rintro ⟨opp, hmem, hsym⟩
    obtain ⟨d, hd, hsome⟩ := mem_find_arbitrage.mp hmem
    obtain ⟨hlen, hh, hg, hsymd, hsp, -, -⟩ := oppOfSymbolData_some_elim hsome
    refine ⟨d, hd, hsymd ▸ hsym, hlen,
      opp.buy_price, opp.sell_price, ?_, ?_, ?_, hsp⟩
    · exact List.mem_map.mpr ⟨_, head_sort_mem hh, rfl⟩
    · exact List.mem_map.mpr ⟨_, getLast_sort_mem hg, rfl⟩
    · intro p hp
      obtain ⟨pr, hpr, rfl⟩ := List.mem_map.mp hp
      exact ⟨head_sort_min hh pr hpr, getLast_sort_max hg pr hpr⟩
  · rintro ⟨d, hd, hsym, hlen, mn, mx, hmn, hmx, hbound, hsp⟩
    have hslen : (List.insertionSort priceLE (usablePrices d.exchanges)).length =
        (usablePrices d.exchanges).length := usable_sort_length d.exchanges
    have hne : List.insertionSort priceLE (usablePrices d.exchanges) ≠ [] := by
      intro hnil
      rw [hnil] at hslen
      simp at hslen
      omega
    obtain ⟨a, hh⟩ : ∃ a,
        (List.insertionSort priceLE (usablePrices d.exchanges)).head? = some a := by
      cases hc : (List.insertionSort priceLE (usablePrices d.exchanges)) with
      | nil => exact absurd hc hne
      | cons x t => exact ⟨x, rfl⟩
    obtain ⟨b, hg⟩ : ∃ b,
        (List.insertionSort priceLE (usablePrices d.exchanges)).getLast? = some b := by
      cases hgl : (List.insertionSort priceLE (usablePrices d.exchanges)).getLast? with
      | none => exact absurd (List.getLast?_eq_none_iff.mp hgl) hne
      | some b => exact ⟨b, rfl⟩
    have hamn : a.2 = mn := by
      obtain ⟨pr, hpr, hpr2⟩ := List.mem_map.mp hmn
      have h1 : a.2 ≤ pr.2 := head_sort_min hh pr hpr
      have h2 : mn ≤ a.2 :=
        (hbound a.2 (List.mem_map.mpr ⟨a, head_sort_mem hh, rfl⟩)).1
      exact le_antisymm (hpr2 ▸ h1) h2
    have hbmx : b.2 = mx := by
      obtain ⟨pr, hpr, hpr2⟩ := List.mem_map.mp hmx
      have h1 : pr.2 ≤ b.2 := getLast_sort_max hg pr hpr
      have h2 : b.2 ≤ mx :=
        (hbound b.2 (List.mem_map.mpr ⟨b, getLast_sort_mem hg, rfl⟩)).2
      exact le_antisymm h2 (hpr2 ▸ h1)
    have hsp' : 1 / 10 < ((b.2 - a.2) / a.2) * 100 := by
      rw [hamn, hbmx]; exact hsp
    refine ⟨_, mem_find_arbitrage.mpr
      ⟨d, hd, oppOfSymbolData_some_intro hlen hh hg hsp'⟩, hsym⟩

/-- C2: For every arbitrage opportunity emitted by the arbitrage
endpoint, sell_price ≥ buy_price, spread_percent equals
(sell_price - buy_price) / buy_price * 100 rounded to 4 decimal places,
and potential_profit_per_unit equals sell_price - buy_price rounded to
6 decimal places, where buy_price is the minimum and sell_price the
maximum usable reported price for that symbol. -/
theorem arbitrage_opportunity_fields (results : List SymbolData)
    (opp : ArbitrageOpportunity)
    (h : opp ∈ find_arbitrage_opportunities results) :
    opp.buy_price ≤ opp.sell_price ∧
    opp.spread_percent =
      roundTo 4 (((opp.sell_price - opp.buy_price) / opp.buy_price) * 100) ∧
    opp.potential_profit_per_unit = roundTo 6 (opp.sell_price - opp.buy_price) ∧
    ∃ d ∈ results, d.symbol = opp.symbol ∧
      opp.buy_price ∈ (usablePrices d.exchanges).map Prod.snd ∧
      opp.sell_price ∈ (usablePrices d.exchanges).map Prod.snd ∧
      ∀ p ∈ (usablePrices d.exchanges).map Prod.snd,
        opp.buy_price ≤ p ∧ p ≤ opp.sell_price := by
  obtain ⟨d, hd, hsome⟩ := mem_find_arbitrage.mp h
  obtain ⟨hlen, hh, hg, hsymd, hsp, hround, hprofit⟩ :=
    oppOfSymbolData_some_elim hsome
  refine ⟨?_, hround, hprofit, d, hd, hsymd.symm, ?_, ?_, ?_⟩
  · exact head_sort_min hh _ (getLast_sort_mem hg)
  · exact List.mem_map.mpr ⟨_, head_sort_mem hh, rfl⟩
  · exact List.mem_map.mpr ⟨_, getLast_sort_mem hg, rfl⟩
  · intro p hp
    obtain ⟨pr, hpr, rfl⟩ := List.mem_map.mp hp
    exact ⟨head_sort_min hh pr hpr, getLast_sort_max hg pr hpr⟩

/-- Witness for `arbitrage_opportunity_fields` on a one-symbol result
with a 0.2% spread. -/
theorem arbitrage_opportunity_fields_witness :
    (50000 : ℚ) ≤ 50100 ∧
    (1 / 5 : ℚ) = roundTo 4 ((((50100 : ℚ) - 50000) / 50000) * 100) ∧
    (100 : ℚ) = roundTo 6 ((50100 : ℚ) - 50000) ∧
    ∃ d ∈ ([⟨"BTCUSDT", [⟨"binance", some 50000⟩, ⟨"kucoin", some 50100⟩]⟩] :
        List SymbolData),
      d.symbol = "BTCUSDT" ∧
      (50000 : ℚ) ∈ (usablePrices d.exchanges).map Prod.snd ∧
      (50100 : ℚ) ∈ (usablePrices d.exchanges).map Prod.snd ∧
      ∀ p ∈ (usablePrices d.exchanges).map Prod.snd,
        (50000 : ℚ) ≤ p ∧ p ≤ 50100 :=
  arbitrage_opportunity_fields
    [⟨"BTCUSDT", [⟨"binance", some 50000⟩, ⟨"kucoin", some 50100⟩]⟩]
    ⟨"BTCUSDT", "binance", "kucoin", 50000, 50100, 1 / 5, 100⟩
    (by decide)

/-! ### Claim C3: ordering of the output -/

theorem spreadGE_not_imp_ne (a b : ArbitrageOpportunity)
    (h : ¬ spreadGE a b) : a.spread_percent ≠ b.spread_percent :=
  fun heq => h (le_of_eq heq.symm)

theorem priceLE_not_imp_ne (a b : String × ℚ)
    (h : ¬ priceLE a b) : a.2 ≠ b.2 :=
  fun heq => h (le_of_eq heq)

/-- C3 counterexample: the final sort at `multi_exchange.py:210` is a
plain stable sort on `spread_percent` with no symbol tie-break: on
`tieResults` both opportunities have spread 1%, yet "ZZZUSDT" precedes
"AAAUSDT" (results order), violating the claimed lexical tie order. -/
theorem find_arbitrage_no_symbol_tiebreak :
    (find_arbitrage_opportunities tieResults).map
        ArbitrageOpportunity.symbol = ["ZZZUSDT", "AAAUSDT"] ∧
    (find_arbitrage_opportunities tieResults).map
        ArbitrageOpportunity.spread_percent = [1, 1] ∧
    ("AAAUSDT" : String) < "ZZZUSDT" ∧
    ¬ List.Pairwise
        (fun a b => b.spread_percent < a.spread_percent ∨
          (a.spread_percent = b.spread_percent ∧ a.symbol < b.symbol))
        (find_arbitrage_opportunities tieResults) := by
  have hout : find_arbitrage_opportunities tieResults =
      [⟨"ZZZUSDT", "exa", "exb", 100, 101, 1, 1⟩,
       ⟨"AAAUSDT", "exa", "exb", 200, 202, 1, 2⟩] := by decide
  refine ⟨by rw [hout]; rfl, by rw [hout]; rfl, ?_, ?_⟩
  · rw [String.lt_iff_toList_lt]; decide
  · intro hpw
    rw [hout] at hpw
    have hrel := (List.pairwise_cons.mp hpw).1 _ (List.mem_singleton.mpr rfl)
    rcases hrel with h | ⟨-, hlt⟩
    · exact absurd h (by decide)
    · rw [String.lt_iff_toList_lt] at hlt
      exact absurd hlt (by decide)

/-- C3 amended: the output is sorted by descending spread_percent, and
opportunities with equal spread_percent keep the relative order of their
source entries in the results list (Python's sort is stable); they are
not reordered by symbol. -/
theorem find_arbitrage_sorted_stable (results : List SymbolData) :
    List.Sorted spreadGE (find_arbitrage_opportunities results) ∧
    ∀ v : ℚ,
      (find_arbitrage_opportunities results).filter
          (fun o => o.spread_percent = v) =
        (results.filterMap oppOfSymbolData).filter
          (fun o => o.spread_percent = v) := by
  refine ⟨List.sorted_insertionSort spreadGE _, fun v => ?_⟩
  exact filter_insertionSort_key spreadGE_not_imp_ne v _

/-! ### Claim C6: tie-breaks at the extreme prices -/

theorem head?_filter_of_head? {α : Type} (p : α → Bool) {l : List α}
    {a : α} (h : l.head? = some a) (hp : p a = true) :
    (l.filter p).head? = some a := by
  cases l with
  | nil => cases h
  | cons x t =>
    cases h
    rw [List.filter_cons, if_pos hp, List.head?_cons]

/-- C6 counterexample: with "beta" and "gamma" tied at the maximum price
101 and "beta" of higher registry priority, the loop picks
`prices[-1]` of the stable ascending sort, i.e. the *last* tied entry
"gamma" — not the higher-priority "beta" the claim requires. -/
theorem sell_exchange_not_highest_priority :
    oppOfSymbolData maxTieData =
      some ⟨"BTCUSDT", "alpha", "gamma", 100, 101, 1, 1⟩ ∧
    (("beta", 101) : String × ℚ) ∈ usablePrices maxTieData.exchanges ∧
    ("beta" : String) ≠ "gamma" := by
  refine ⟨by decide, by decide, by decide⟩

/-- C6 amended: with the exchange map in registry priority order, the
buy side of a min-price tie goes to the *first* (highest-priority) tied
exchange, but the sell side of a max-price tie goes to the *last*
(lowest-priority) tied exchange, `prices[0]` and `prices[-1]` of a
stable ascending sort. -/
theorem arbitrage_tiebreak (d : SymbolData) (opp : ArbitrageOpportunity)
    (h : oppOfSymbolData d = some opp) :
    (usablePrices d.exchanges).find? (fun p => p.2 = opp.buy_price) =
      some (opp.buy_exchange, opp.buy_price) ∧
    ((usablePrices d.exchanges).filter
        (fun p => p.2 = opp.sell_price)).getLast? =
      some (opp.sell_exchange, opp.sell_price) ∧
    ∀ p ∈ usablePrices d.exchanges,
      opp.buy_price ≤ p.2 ∧ p.2 ≤ opp.sell_price := by
  obtain ⟨hlen, hh, hg, -, -, -, -⟩ := oppOfSymbolData_some_elim h
  have hstabmin :
      ((List.insertionSort priceLE (usablePrices d.exchanges)).filter
          (fun x => x.2 = opp.buy_price)) =
        (usablePrices d.exchanges).filter (fun x => x.2 = opp.buy_price) :=
    filter_insertionSort_key priceLE_not_imp_ne opp.buy_price _
  have hstabmax :
      ((List.insertionSort priceLE (usablePrices d.exchanges)).filter
          (fun x => x.2 = opp.sell_price)) =
        (usablePrices d.exchanges).filter (fun x => x.2 = opp.sell_price) :=
    filter_insertionSort_key priceLE_not_imp_ne opp.sell_price _
  refine ⟨?_, ?_, ?_⟩
  · rw [find?_eq_head?_filter, ← hstabmin]
    exact head?_filter_of_head? _ hh (by simp)
  · rw [← hstabmax]
    exact getLast?_filter_of_getLast _ _ _ hg (by simp)
  · intro p hp
    exact ⟨head_sort_min hh p hp, getLast_sort_max hg p hp⟩

/-- Witness for `arbitrage_tiebreak` at a concrete entry. -/
theorem arbitrage_tiebreak_witness :
    (usablePrices (⟨"ETHUSDT",
        [⟨"binance", some 3000⟩, ⟨"kucoin", some 3010⟩]⟩ :
          SymbolData).exchanges).find?
        (fun p => p.2 = (3000 : ℚ)) = some ("binance", 3000) ∧
    ((usablePrices (⟨"ETHUSDT",
        [⟨"binance", some 3000⟩, ⟨"kucoin", some 3010⟩]⟩ :
          SymbolData).exchanges).filter
        (fun p => p.2 = (3010 : ℚ))).getLast? = some ("kucoin", 3010) ∧
    ∀ p ∈ usablePrices (⟨"ETHUSDT",
        [⟨"binance", some 3000⟩, ⟨"kucoin", some 3010⟩]⟩ :
          SymbolData).exchanges, (3000 : ℚ) ≤ p.2 ∧ p.2 ≤ 3010 :=
  arbitrage_tiebreak
    ⟨"ETHUSDT", [⟨"binance", some 3000⟩, ⟨"kucoin", some 3010⟩]⟩
    ⟨"ETHUSDT", "binance", "kucoin", 3000, 3010, 3333/10000, 10⟩
    (by decide)

/-- C4 (code bug): the endpoints' own validation `HTTPException(400)`s
are caught by the blanket `except Exception` and re-raised as generic
500s, so a missing, empty or oversized symbols list surfaces to the
caller as a *server* error, not the claimed client 4xx. -/
theorem validation_errors_surface_as_500 :
    find_best_prices none (fun l => l) =
      .error ⟨500, "Failed to find best prices: 400: Symbols list is required"⟩ ∧
    find_best_prices (some []) (fun l => l) =
      .error ⟨500, "Failed to find best prices: 400: Symbols list is required"⟩ ∧
    find_best_prices
        (some ["S1", "S2", "S3", "S4", "S5", "S6", "S7", "S8", "S9", "S10", "S11"])
        (fun l => l) =
      .error ⟨500,
        "Failed to find best prices: 400: Maximum 10 symbols allowed per request"⟩ ∧
    arbitrage_route (some []) (fun _ => []) =
      .error ⟨500,
        "Failed to analyze arbitrage opportunities: 400: Symbols list is required"⟩ ∧
    arbitrage_route (some ["S1", "S2", "S3", "S4", "S5", "S6"]) (fun _ => []) =
      .error ⟨500,
        "Failed to analyze arbitrage opportunities: 400: Maximum 5 symbols allowed for arbitrage analysis"⟩ ∧
    get_trading_recommendations (some []) (fun l => l) =
      .error ⟨500,
        "Failed to generate trading recommendations: 400: Symbols list is required"⟩ := by
  refine ⟨rfl, rfl, ?_, rfl, ?_, rfl⟩ <;> rfl

/-- C5: oversized symbol lists are rejected by the synchronous
validation before the agent/advisor is awaited: the validator yields the
400 error and the handler's result does not depend on the agent at all
(so the agent is never invoked). -/
theorem oversized_requests_never_invoke_agent {α : Type} (syms : List String)
    (agent1 agent2 : List String → α)
    (pmap1 pmap2 : List String → List SymbolData)
    (adv1 adv2 : List String → α) :
    (10 < syms.length →
      bestPricesValidate (some syms) =
        .error ⟨400, "Maximum 10 symbols allowed per request"⟩ ∧
      find_best_prices (some syms) agent1 =
        find_best_prices (some syms) agent2) ∧
    (5 < syms.length →
      arbitrageValidate (some syms) =
        .error ⟨400, "Maximum 5 symbols allowed for arbitrage analysis"⟩ ∧
      arbitrage_route (some syms) pmap1 = arbitrage_route (some syms) pmap2) ∧
    (5 < syms.length →
      recommendationsValidate (some syms) =
        .error ⟨400, "Maximum 5 symbols allowed per request"⟩ ∧
      get_trading_recommendations (some syms) adv1 =
        get_trading_recommendations (some syms) adv2) := by
  have hne : 0 < syms.length → ¬ syms = [] := by
    intro h hnil
    rw [hnil] at h
    simp at h
  refine ⟨fun h => ?_, fun h => ?_, fun h => ?_⟩
  · have hv : bestPricesValidate (some syms) =
        .error ⟨400, "Maximum 10 symbols allowed per request"⟩ := by
      rw [bestPricesValidate, if_neg (hne (by omega)), if_pos h]
    exact ⟨hv, by rw [find_best_prices, hv, find_best_prices, hv]⟩
  · have hv : arbitrageValidate (some syms) =
        .error ⟨400, "Maximum 5 symbols allowed for arbitrage analysis"⟩ := by
      rw [arbitrageValidate, if_neg (hne (by omega)), if_pos h]
    exact ⟨hv, by rw [arbitrage_route, hv, arbitrage_route, hv]⟩
  · have hv : recommendationsValidate (some syms) =
        .error ⟨400, "Maximum 5 symbols allowed per request"⟩ := by
      rw [recommendationsValidate, if_neg (hne (by omega)), if_pos h]
    exact ⟨hv,
      by rw [get_trading_recommendations, hv, get_trading_recommendations, hv]⟩

/-- Witness for `oversized_requests_never_invoke_agent` on an 11-symbol
request with two observably different agents. -/
theorem oversized_requests_never_invoke_agent_witness :
    (bestPricesValidate
        (some ["S1", "S2", "S3", "S4", "S5", "S6", "S7", "S8", "S9", "S10", "S11"]) =
      .error ⟨400, "Maximum 10 symbols allowed per request"⟩ ∧
    find_best_prices
        (some ["S1", "S2", "S3", "S4", "S5", "S6", "S7", "S8", "S9", "S10", "S11"])
        (fun _ => (0 : ℕ)) =
      find_best_prices
        (some ["S1", "S2", "S3", "S4", "S5", "S6", "S7", "S8", "S9", "S10", "S11"])
        (fun _ => (1 : ℕ))) ∧
    (arbitrageValidate
        (some ["S1", "S2", "S3", "S4", "S5", "S6", "S7", "S8", "S9", "S10", "S11"]) =
      .error ⟨400, "Maximum 5 symbols allowed for arbitrage analysis"⟩ ∧
    arbitrage_route
        (some ["S1", "S2", "S3", "S4", "S5", "S6", "S7", "S8", "S9", "S10", "S11"])
        (fun _ => []) =
      arbitrage_route
        (some ["S1", "S2", "S3", "S4", "S5", "S6", "S7", "S8", "S9", "S10", "S11"])
        (fun _ => [maxTieData])) ∧
    (recommendationsValidate
        (some ["S1", "S2", "S3", "S4", "S5", "S6", "S7", "S8", "S9", "S10", "S11"]) =
      .error ⟨400, "Maximum 5 symbols allowed per request"⟩ ∧
    get_trading_recommendations
        (some ["S1", "S2", "S3", "S4", "S5", "S6", "S7", "S8", "S9", "S10", "S11"])
        (fun _ => (0 : ℕ)) =
      get_trading_recommendations
        (some ["S1", "S2", "S3", "S4", "S5", "S6", "S7", "S8", "S9", "S10", "S11"])
        (fun _ => (1 : ℕ))) := by
  obtain ⟨h1, h2, h3⟩ := oversized_requests_never_invoke_agent
    ["S1", "S2", "S3", "S4", "S5", "S6", "S7", "S8", "S9", "S10", "S11"]
    (fun _ => (0 : ℕ)) (fun _ => (1 : ℕ))
    (fun _ => []) (fun _ => [maxTieData])
    (fun _ => (0 : ℕ)) (fun _ => (1 : ℕ))
  exact ⟨h1 (by decide), h2 (by decide), h3 (by decide)⟩

namespace ConnectionManager

theorem mem_setKey {st : List (String × Finset ℕ)} {s : String}
    {w : Finset ℕ} {p : String × Finset ℕ} (h : p ∈ setKey st s w) :
    p ∈ st ∨ p.2 = w := by
  induction st with
  | nil => cases h
  | cons hd t ih =>
    obtain ⟨k, v⟩ := hd
    rw [setKey] at h
    by_cases hk : k = s
    · rw [if_pos hk] at h
      rcases List.mem_cons.mp h with rfl | h
      · exact Or.inr rfl
      · exact Or.inl (List.mem_cons_of_mem _ h)
    · rw [if_neg hk] at h
      rcases List.mem_cons.mp h with rfl | h
      · exact Or.inl (List.mem_cons_self _ _)
      · rcases ih h with h | h
        · exact Or.inl (List.mem_cons_of_mem _ h)
        · exact Or.inr h

theorem mem_delKey {st : List (String × Finset ℕ)} {s : String}
    {p : String × Finset ℕ} (h : p ∈ delKey st s) : p ∈ st := by
  induction st with
  | nil => cases h
  | cons hd t ih =>
    obtain ⟨k, v⟩ := hd
    rw [delKey] at h
    by_cases hk : k = s
    · rw [if_pos hk] at h
      exact List.mem_cons_of_mem _ h
    · rw [if_neg hk] at h
      rcases List.mem_cons.mp h with rfl | h
      · exact List.mem_cons_self _ _
      · exact List.mem_cons_of_mem _ (ih h)

theorem lookup_setKey_isSome (st : List (String × Finset ℕ))
    (s k : String) (w : Finset ℕ) :
    (lookup (setKey st s w) k).isSome = (lookup st k).isSome := by
  induction st with
  | nil => rfl
  | cons hd t ih =>
    obtain ⟨k', v⟩ := hd
    rw [setKey]
    by_cases hk : k' = s
    · rw [if_pos hk, lookup, lookup]
      by_cases hks : k' = k
      · rw [if_pos hks, if_pos hks]; rfl
      · rw [if_neg hks, if_neg hks]
    · rw [if_neg hk, lookup, lookup]
      by_cases hks : k' = k
      · rw [if_pos hks, if_pos hks]
      · rw [if_neg hks, if_neg hks]
        exact ih

theorem lookup_setKey_self {st : List (String × Finset ℕ)} {s : String}
    {v : Finset ℕ} (h : lookup st s = some v) (w : Finset ℕ) :
    lookup (setKey st s w) s = some w := by
  induction st with
  | nil => cases h
  | cons hd t ih =>
    obtain ⟨k, v'⟩ := hd
    rw [lookup] at h
    rw [setKey]
    by_cases hk : k = s
    · rw [if_pos hk, lookup, if_pos hk]
    · rw [if_neg hk, lookup, if_neg hk]
      rw [if_neg hk] at h
      exact ih h

theorem lookup_setKey_other (st : List (String × Finset ℕ))
    {s k : String} (hk : k ≠ s) (w : Finset ℕ) :
    lookup (setKey st s w) k = lookup st k := by
  induction st with
  | nil => rfl
  | cons hd t ih =>
    obtain ⟨k', v⟩ := hd
    rw [setKey]
    by_cases hks : k' = s
    · rw [if_pos hks, lookup, lookup]
      by_cases hkk : k' = k
      · exact absurd (hkk ▸ hks) hk
      · rw [if_neg hkk, if_neg hkk]
    · rw [if_neg hks, lookup, lookup]
      by_cases hkk : k' = k
      · rw [if_pos hkk, if_pos hkk]
      · rw [if_neg hkk, if_neg hkk]
        exact ih

theorem lookup_delKey_other (st : List (String × Finset ℕ))
    {s k : String} (hk : k ≠ s) :
    lookup (delKey st s) k = lookup st k := by
  induction st with
  | nil => rfl
  | cons hd t ih =>
    obtain ⟨k', v⟩ := hd
    rw [delKey]
    by_cases hks : k' = s
    · rw [if_pos hks, lookup]
      by_cases hkk : k' = k
      · exact absurd (hkk ▸ hks) hk
      · rw [if_neg hkk]
    · rw [if_neg hks, lookup, lookup]
      by_cases hkk : k' = k
      · rw [if_pos hkk, if_pos hkk]
      · rw [if_neg hkk, if_neg hkk]
        exact ih

theorem lookup_eq_none_of_not_mem {st : List (String × Finset ℕ)}
    {k : String} (h : k ∉ st.map Prod.fst) : lookup st k = none := by
  induction st with
  | nil => rfl
  | cons hd t ih =>
    obtain ⟨k', v⟩ := hd
    rw [lookup]
    rw [List.map_cons, List.mem_cons] at h
    push_neg at h
    rw [if_neg (fun he => h.1 he.symm)]
    exact ih h.2

theorem lookup_delKey_self {st : List (String × Finset ℕ)}
    (hnd : NodupKeys st) (k : String) :
    lookup (delKey st k) k = none := by
  induction st with
  | nil => rfl
  | cons hd t ih =>
    obtain ⟨k', v⟩ := hd
    rw [NodupKeys, List.map_cons, List.nodup_cons] at hnd
    rw [delKey]
    by_cases hks : k' = k
    · rw [if_pos hks]
      exact lookup_eq_none_of_not_mem (hks ▸ hnd.1)
    · rw [if_neg hks, lookup, if_neg hks]
      exact ih hnd.2

theorem setKey_setKey (st : List (String × Finset ℕ)) (s : String)
    (w w' : Finset ℕ) : setKey (setKey st s w) s w' = setKey st s w' := by
  induction st with
  | nil => rfl
  | cons hd t ih =>
    obtain ⟨k, v⟩ := hd
    rw [setKey]
    by_cases hk : k = s
    · rw [if_pos hk, setKey, if_pos hk, setKey, if_pos hk]
    · rw [if_neg hk, setKey, if_neg hk, setKey, if_neg hk, ih]

end ConnectionManager

namespace ConnectionManager

theorem broadcastPass_eq (conns : List ℕ) (fails : Finset ℕ) :
    broadcastPass conns fails =
      (conns.filter (fun c => c ∉ fails), conns.toFinset ∩ fails) := by
  have go : ∀ (l : List ℕ) (acc : List ℕ × Finset ℕ),
      l.foldl
        (fun acc c =>
          if c ∈ fails then (acc.1, insert c acc.2)
          else (acc.1 ++ [c], acc.2)) acc =
        (acc.1 ++ l.filter (fun c => c ∉ fails),
          acc.2 ∪ l.toFinset ∩ fails) := by
    intro l
    induction l with
    | nil => intro acc; simp
    | cons c t ih =>
      intro acc
      rw [List.foldl_cons]
      by_cases hc : c ∈ fails
      · rw [if_pos hc, ih]
        refine Prod.ext ?_ ?_
        · simp [List.filter_cons, hc]
        · dsimp only
          ext x
          by_cases hx : x = c
          · subst hx
            simp [hc]
          · simp [hx]
      · rw [if_neg hc, ih]
        refine Prod.ext ?_ ?_
        · simp [List.filter_cons, hc]
        · dsimp only
          ext x
          by_cases hx : x = c
          · subst hx
            simp [hc]
          · simp [hx]
  rw [broadcastPass, go]
  simp

end ConnectionManager

/-! ### Claims C7, C8, C9 -/

/-- C7 counterexample: a broadcast in which every subscriber's send
fails empties the set with `-=` but never deletes the key
(websockets.py:56), leaving a symbol mapped to an empty set — the
claimed invariant is violated after a broadcast. -/
theorem broadcast_leaves_empty_entry :
    (ConnectionManager.broadcast [("BTCUSDT", {1})] "BTCUSDT" [1] {1}).2 =
      [("BTCUSDT", (∅ : Finset ℕ))] ∧
    ¬ ConnectionManager.Invariant
      ((ConnectionManager.broadcast [("BTCUSDT", {1})] "BTCUSDT" [1] {1}).2) := by
  have h : (ConnectionManager.broadcast [("BTCUSDT", {1})] "BTCUSDT" [1] {1}).2 =
      [("BTCUSDT", (∅ : Finset ℕ))] := by decide
  refine ⟨h, fun hinv => ?_⟩
  rw [h] at hinv
  exact hinv _ (List.mem_singleton.mpr rfl) rfl

/-- C7 amended: the subscriber-map invariant (every present symbol has a
non-empty subscriber set) is preserved by `connect` and `disconnect`;
`broadcast` preserves the *key set* but not the invariant — it prunes
failed connections without ever removing an emptied symbol entry. -/
theorem connection_manager_invariant (st : List (String × Finset ℕ))
    (ws : ℕ) (sym : String) (conns : List ℕ) (fails : Finset ℕ)
    (hinv : ConnectionManager.Invariant st) :
    ConnectionManager.Invariant (ConnectionManager.connect st ws sym) ∧
    ConnectionManager.Invariant (ConnectionManager.disconnect st ws sym) ∧
    ∀ k, (ConnectionManager.lookup
        ((ConnectionManager.broadcast st sym conns fails).2) k).isSome =
      (ConnectionManager.lookup st k).isSome := by
  refine ⟨?_, ?_, ?_⟩
  · rw [ConnectionManager.connect]
    cases hl : ConnectionManager.lookup st sym with
    | none =>
      intro p hp
      rcases List.mem_append.mp hp with hp | hp
      · exact hinv p hp
      · rcases List.mem_singleton.mp hp with rfl
        exact Finset.singleton_ne_empty ws
    | some v =>
      intro p hp
      rcases ConnectionManager.mem_setKey hp with hp | hp
      · exact hinv p hp
      · rw [hp]
        exact Finset.insert_ne_empty ws v
  · rw [ConnectionManager.disconnect]
    cases hl : ConnectionManager.lookup st sym with
    | none => exact hinv
    | some v =>
      dsimp only
      by_cases hv : v.erase ws = ∅
      · rw [if_pos hv]
        intro p hp
        exact hinv p (ConnectionManager.mem_delKey hp)
      · rw [if_neg hv]
        intro p hp
        rcases ConnectionManager.mem_setKey hp with hp | hp
        · exact hinv p hp
        · rw [hp]
          exact hv
  · intro k
    rw [ConnectionManager.broadcast]
    cases hl : ConnectionManager.lookup st sym with
    | none => rfl
    | some v => exact ConnectionManager.lookup_setKey_isSome st sym k _

/-- Witness for `connection_manager_invariant` on a concrete state. -/
theorem connection_manager_invariant_witness :
    ConnectionManager.Invariant
      (ConnectionManager.connect [("BTCUSDT", {1, 2})] 7 "ETHUSDT") ∧
    ConnectionManager.Invariant
      (ConnectionManager.disconnect [("BTCUSDT", {1, 2})] 7 "ETHUSDT") ∧
    ∀ k, (ConnectionManager.lookup
        ((ConnectionManager.broadcast [("BTCUSDT", {1, 2})] "ETHUSDT" [1] ∅).2)
          k).isSome =
      (ConnectionManager.lookup [("BTCUSDT", {1, 2})] k).isSome :=
  connection_manager_invariant [("BTCUSDT", {1, 2})] 7 "ETHUSDT" [1] ∅
    (by decide)

/-- C8: a failing send never aborts the broadcast pass: every
non-failing connection in the iteration still receives the message, the
delivered list is exactly the non-failing connections in iteration
order, and after the pass completes exactly the failing connections
have been removed from the symbol's subscriber set, all other symbols
untouched (collect-then-mutate: the set is not mutated during
iteration). -/
theorem broadcast_isolates_failures (st : List (String × Finset ℕ))
    (sym : String) (v : Finset ℕ) (conns : List ℕ) (fails : Finset ℕ)
    (hl : ConnectionManager.lookup st sym = some v)
    (hnd : conns.Nodup) (hcv : conns.toFinset = v) :
    (∀ c ∈ conns, c ∉ fails →
      c ∈ (ConnectionManager.broadcast st sym conns fails).1) ∧
    (ConnectionManager.broadcast st sym conns fails).1 =
      conns.filter (fun c => c ∉ fails) ∧
    ConnectionManager.lookup
        ((ConnectionManager.broadcast st sym conns fails).2) sym =
      some (v \ fails) ∧
    ∀ k, k ≠ sym →
      ConnectionManager.lookup
          ((ConnectionManager.broadcast st sym conns fails).2) k =
        ConnectionManager.lookup st k := by
  have hv : v \ (conns.toFinset ∩ fails) = v \ fails := by
    rw [hcv]
    ext x
    simp only [Finset.mem_sdiff, Finset.mem_inter]
    tauto
  have hb : ConnectionManager.broadcast st sym conns fails =
      (conns.filter (fun c => c ∉ fails),
        ConnectionManager.setKey st sym (v \ fails)) := by
    rw [ConnectionManager.broadcast, hl]
    dsimp only
    rw [ConnectionManager.broadcastPass_eq]
    dsimp only
    rw [hv]
  refine ⟨?_, ?_, ?_, ?_⟩
  · intro c hc hcf
    rw [hb]
    simp only [List.mem_filter, decide_eq_true_eq]
    exact ⟨hc, by simpa using hcf⟩
  · rw [hb]
  · rw [hb]
    exact ConnectionManager.lookup_setKey_self hl _
  · intro k hk
    rw [hb]
    exact ConnectionManager.lookup_setKey_other st hk _

/-- Witness for `broadcast_isolates_failures`: three subscribers, one
failing send. -/
theorem broadcast_isolates_failures_witness :
    (∀ c ∈ [1, 2, 3], c ∉ ({2} : Finset ℕ) →
      c ∈ (ConnectionManager.broadcast [("BTCUSDT", {1, 2, 3})] "BTCUSDT"
          [1, 2, 3] {2}).1) ∧
    (ConnectionManager.broadcast [("BTCUSDT", {1, 2, 3})] "BTCUSDT"
        [1, 2, 3] {2}).1 =
      [1, 2, 3].filter (fun c => c ∉ ({2} : Finset ℕ)) ∧
    ConnectionManager.lookup
        ((ConnectionManager.broadcast [("BTCUSDT", {1, 2, 3})] "BTCUSDT"
          [1, 2, 3] {2}).2) "BTCUSDT" =
      some (({1, 2, 3} : Finset ℕ) \ {2}) ∧
    ∀ k, k ≠ "BTCUSDT" →
      ConnectionManager.lookup
          ((ConnectionManager.broadcast [("BTCUSDT", {1, 2, 3})] "BTCUSDT"
            [1, 2, 3] {2}).2) k =
        ConnectionManager.lookup [("BTCUSDT", {1, 2, 3})] k :=
  broadcast_isolates_failures [("BTCUSDT", {1, 2, 3})] "BTCUSDT"
    {1, 2, 3} [1, 2, 3] {2} (by decide) (by decide) (by decide)

/-- C9: `disconnect` is safe on any input — a missing symbol entry (or a
websocket that was never registered) leaves the state unchanged in a
well-defined way rather than raising — it never touches other symbols'
entries, and it is idempotent. -/
theorem disconnect_noop_frame_idempotent (st : List (String × Finset ℕ))
    (ws : ℕ) (sym : String) (hnd : ConnectionManager.NodupKeys st) :
    (ConnectionManager.lookup st sym = none →
      ConnectionManager.disconnect st ws sym = st) ∧
    (∀ k, k ≠ sym →
      ConnectionManager.lookup (ConnectionManager.disconnect st ws sym) k =
        ConnectionManager.lookup st k) ∧
    ConnectionManager.disconnect
        (ConnectionManager.disconnect st ws sym) ws sym =
      ConnectionManager.disconnect st ws sym := by
  refine ⟨?_, ?_, ?_⟩
  · intro h
    rw [ConnectionManager.disconnect, h]
  · intro k hk
    rw [ConnectionManager.disconnect]
    cases hl : ConnectionManager.lookup st sym with
    | none => rfl
    | some v =>
      dsimp only
      by_cases hv : v.erase ws = ∅
      · rw [if_pos hv]
        exact ConnectionManager.lookup_delKey_other st hk
      · rw [if_neg hv]
        exact ConnectionManager.lookup_setKey_other st hk _
  · cases hl : ConnectionManager.lookup st sym with
    | none =>
      have h1 : ConnectionManager.disconnect st ws sym = st := by
        rw [ConnectionManager.disconnect, hl]
      rw [h1]
      exact h1
    | some v =>
      by_cases hv : v.erase ws = ∅
      · have h1 : ConnectionManager.disconnect st ws sym =
            ConnectionManager.delKey st sym := by
          rw [ConnectionManager.disconnect, hl]
          dsimp only
          rw [if_pos hv]
        rw [h1, ConnectionManager.disconnect,
          ConnectionManager.lookup_delKey_self hnd]
      · have h1 : ConnectionManager.disconnect st ws sym =
            ConnectionManager.setKey st sym (v.erase ws) := by
          rw [ConnectionManager.disconnect, hl]
          dsimp only
          rw [if_neg hv]
        rw [h1, ConnectionManager.disconnect,
          ConnectionManager.lookup_setKey_self hl]
        dsimp only
        rw [Finset.erase_idem, if_neg hv, ConnectionManager.setKey_setKey]

/-- Witness for `disconnect_noop_frame_idempotent` with an absent
symbol. -/
theorem disconnect_noop_frame_idempotent_witness :
    (ConnectionManager.lookup [("BTCUSDT", {1})] "ETHUSDT" = none →
      ConnectionManager.disconnect [("BTCUSDT", {1})] 9 "ETHUSDT" =
        [("BTCUSDT", {1})]) ∧
    (∀ k, k ≠ "ETHUSDT" →
      ConnectionManager.lookup
          (ConnectionManager.disconnect [("BTCUSDT", {1})] 9 "ETHUSDT") k =
        ConnectionManager.lookup [("BTCUSDT", {1})] k) ∧
    ConnectionManager.disconnect
        (ConnectionManager.disconnect [("BTCUSDT", {1})] 9 "ETHUSDT")
        9 "ETHUSDT" =
      ConnectionManager.disconnect [("BTCUSDT", {1})] 9 "ETHUSDT" :=
  disconnect_noop_frame_idempotent [("BTCUSDT", {1})] 9 "ETHUSDT" (by decide)

/-- C10 counterexample: on a single candle with close 10, the mean of
the last (up to) 7 closes equals the mean of all closes, so the claim
requires "HOLD"; but the code divides the short sum by the constant 7
(`sum(close_prices[-7:]) / 7`), yielding 10/7 < 10 and hence "SELL". -/
theorem generate_signal_short_history_mismatch :
    generate_signal [[0, 0, 0, 0, 10]] = some "SELL" ∧
    meanLastSeven [10] = meanAll [10] := by
  constructor
  · decide
  · decide

/-- C10 amended: for every non-empty candle list whose index-4 close
fields all parse, `generate_signal` is total and returns exactly one of
"BUY", "SELL", "HOLD" — with the comparison between the *sum of the
last `min 7 n` closes divided by the constant 7* and the mean of all
closes (these agree with the claimed 7-period mean only when `n ≥ 7`). -/
theorem generate_signal_total_and_cases (market_data : List (List ℚ))
    (closes : List ℚ)
    (h : market_data.mapM (fun row => row[4]?) = some closes)
    (hne : closes ≠ []) :
    ∃ s, generate_signal market_data = some s ∧
      (s = "BUY" ∨ s = "SELL" ∨ s = "HOLD") ∧
      (s = "BUY" ↔
        meanAll closes < (closes.drop (closes.length - 7)).sum / 7) ∧
      (s = "SELL" ↔
        (closes.drop (closes.length - 7)).sum / 7 < meanAll closes) ∧
      (s = "HOLD" ↔
        (closes.drop (closes.length - 7)).sum / 7 = meanAll closes) := by
  have hlen : ¬ closes.length = 0 := by
    simpa [List.length_eq_zero] using hne
  rw [generate_signal, h]
  dsimp only
  rw [if_neg hlen]
  have hm : closes.sum / (closes.length : ℚ) = meanAll closes := rfl
  rw [hm]
  set S := (closes.drop (closes.length - 7)).sum / 7 with hS
  set A := meanAll closes with hA
  rcases lt_trichotomy A S with hc | hc | hc
  · refine ⟨"BUY", by rw [if_pos hc], Or.inl rfl,
      ⟨fun _ => hc, fun _ => rfl⟩,
      ⟨fun hs => absurd hs (by decide), fun hlt => absurd hc (lt_asymm hlt)⟩,
      ⟨fun hs => absurd hs (by decide),
        fun heq => absurd hc (not_lt.mpr heq.le)⟩⟩
  · refine ⟨"HOLD", ?_, Or.inr (Or.inr rfl),
      ⟨fun hs => absurd hs (by decide),
        fun hlt => absurd hlt (not_lt.mpr hc.ge)⟩,
      ⟨fun hs => absurd hs (by decide),
        fun hlt => absurd hlt (not_lt.mpr hc.le)⟩,
      ⟨fun _ => hc.symm, fun _ => rfl⟩⟩
    rw [if_neg (not_lt.mpr hc.ge), if_neg (not_lt.mpr hc.le)]
  · refine ⟨"SELL", by rw [if_neg (not_lt.mpr hc.le), if_pos hc],
      Or.inr (Or.inl rfl),
      ⟨fun hs => absurd hs (by decide), fun hlt => absurd hlt (lt_asymm hc)⟩,
      ⟨fun _ => hc, fun _ => rfl⟩,
      ⟨fun hs => absurd hs (by decide),
        fun heq => absurd hc (not_lt.mpr heq.ge)⟩⟩

/-- Witness for `generate_signal_total_and_cases` on two candles. -/
theorem generate_signal_total_and_cases_witness :
    ∃ s, generate_signal [[0, 0, 0, 0, 1], [0, 0, 0, 0, 2]] = some s ∧
      (s = "BUY" ∨ s = "SELL" ∨ s = "HOLD") ∧
      (s = "BUY" ↔
        meanAll [1, 2] < (([1, 2] : List ℚ).drop (([1, 2] : List ℚ).length - 7)).sum / 7) ∧
      (s = "SELL" ↔
        (([1, 2] : List ℚ).drop (([1, 2] : List ℚ).length - 7)).sum / 7 < meanAll [1, 2]) ∧
      (s = "HOLD" ↔
        (([1, 2] : List ℚ).drop (([1, 2] : List ℚ).length - 7)).sum / 7 = meanAll [1, 2]) :=
  generate_signal_total_and_cases [[0, 0, 0, 0, 1], [0, 0, 0, 0, 2]] [1, 2]
    (by decide) (by decide)
